import Mathlib

/-!
Verification development for the consumer core of faust
(`faust/transport/consumer.py`): a shallow embedding of the offset-tracking
and commit engine of `class Consumer`, together with theorems about the ack
ledger, the commit path and partition pause/resume.

Conventions of the embedding:
* Python `dict`/`defaultdict` fields keyed by topic-partition become Lean
  functions `TP → _` (the defaultdict default is the value the function
  returns for keys never written).
* Python `set` becomes `Finset`.
* Python `None` becomes `Option.none`; integer offsets are `Int`.
* In-place mutation becomes explicit state passing: each operation returns
  the updated `ConsumerState` (and, for `ack`, the mutated message).
* Monotonic-clock fields (`_last_batch`, `_time_start`), asyncio futures and
  logging are not part of the pure ledger state; where an operation's result
  depends on an await (the driver, the producer, a pending commit future),
  the outcome is an explicit parameter of the model.
-/

namespace Faust

/-- `faust.types.TP`: a topic-partition pair, value-typed with equality by
fields. -/
structure TP where
  topic : String
  partition : Int
deriving DecidableEq

/-- The fields of `faust.types.Message` used by `Consumer.ack`:
`tp`, `offset`, `topic` and the mutable `acked` flag.  `mid` stands for the
object identity used by the `_unacked_messages` set. -/
structure Message where
  mid : Nat
  tp : TP
  offset : Int
  topic : String
  acked : Bool
deriving DecidableEq

/-- The part of the application the consumer consults in `ack`:
`self.app.topics.acks_enabled_for(message.topic)`. -/
structure AppConfig where
  acks_enabled_for : String → Bool

/-- The ledger state of `Consumer`:
`_acked`, `_acked_index`, `_read_offset`, `_committed_offset`,
`_unacked_messages`, `_n_acked`, `_active_partitions`, `_paused_partitions`. -/
structure ConsumerState where
  acked : TP → List Int
  acked_index : TP → Finset Int
  read_offset : TP → Option Int
  committed_offset : TP → Option Int
  unacked_messages : Finset Nat
  n_acked : Nat
  active_partitions : Option (Finset TP)
  paused_partitions : Finset TP

/-- Python's in-place `list.sort()` on a list of ints: stable sort by `≤`
(on `Int` the sorted result is determined by the multiset alone). -/
def sortAcked (l : List Int) : List Int :=
  l.insertionSort (· ≤ ·)

/-- Modelled from the spec: the repository's `faust.utils.functional.
consecutive_numbers` (not part of the sources at hand) yields the runs of
consecutive integers of a list; `_new_offset` consumes only the first run
(`next(consecutive_numbers(acked))`).  `consecRunFrom prev l` is the run
continuation: the longest prefix of `l` of the form
`prev+1, prev+2, …`. -/
def consecRunFrom (prev : Int) : List Int → List Int
  | [] => []
  | y :: ys => if y = prev + 1 then y :: consecRunFrom y ys else []

/-- Modelled from the spec: the first group produced by
`consecutive_numbers(acked)` — the leading maximal run of consecutive
integers of `acked`. -/
def firstConsecutiveRun : List Int → List Int
  | [] => []
  | x :: xs => x :: consecRunFrom x xs

/-- `Consumer._new_offset(tp)`: if `self._acked[tp]` is non-empty, sort it
in place, take the first run of consecutive numbers, slice it off the list,
remove it from `self._acked_index[tp]`, and return the run's last element;
on an empty list return `None`.  (The source tests `if acked:` before
sorting; since sorting permutes, matching on the sorted list is the same
test.) -/
def new_offset (s : ConsumerState) (tp : TP) : Option Int × ConsumerState :=
  match sortAcked (s.acked tp) with
  | [] => (none, s)
  | x :: xs =>
    let batch := x :: consecRunFrom x xs
    (some (batch.getLastD 0),
      { s with
        acked := fun t => if t = tp then (x :: xs).drop batch.length else s.acked t
        acked_index := fun t =>
          if t = tp then s.acked_index tp \ batch.toFinset else s.acked_index t })

/-- `[a, a+1, …, a+n-1]`: the canonical run of `n` consecutive integers
starting at `a`, used to characterise what `_new_offset` removes. -/
def runFrom (a : Int) : Nat → List Int
  | 0 => []
  | n + 1 => a :: runFrom (a + 1) n

/-- `Consumer.ack(message)`: flip the message's `acked` flag; when acks are
enabled for the topic, the offset is above `committed_offset[tp]` and not
yet in `acked_index[tp]`, record it (drop from `unacked`, add to the index,
append to `acked[tp]`, bump `n_acked`) and return `True`; otherwise return
`False`.  Returns the return value, the mutated message, and the new state.
The `finally: notify(self._waiting_for_ack)` only wakes `wait_empty` and
has no ledger effect. -/
def ack (cfg : AppConfig) (s : ConsumerState) (m : Message) :
    Bool × Message × ConsumerState :=
  if m.acked then (false, m, s)
  else
    let m' := { m with acked := true }
    if cfg.acks_enabled_for m.topic then
      let canAck :=
        match s.committed_offset m.tp with
        | none => true
        | some committed => decide (committed < m.offset)
      if canAck then
        if m.offset ∈ s.acked_index m.tp then (false, m', s)
        else
          (true, m',
            { s with
              unacked_messages := s.unacked_messages.erase m.mid
              acked_index := fun t =>
                if t = m.tp then insert m.offset (s.acked_index m.tp)
                else s.acked_index t
              acked := fun t =>
                if t = m.tp then s.acked m.tp ++ [m.offset] else s.acked t
              n_acked := s.n_acked + 1 })
      else (false, m', s)
    else (false, m', s)

/-- `Consumer._should_commit(tp, offset)`:
`committed is None or bool(offset) and offset > committed`
(`bool(offset)` is `offset ≠ 0`). -/
def should_commit (s : ConsumerState) (tp : TP) (offset : Int) : Bool :=
  match s.committed_offset tp with
  | none => true
  | some committed => decide (offset ≠ 0) && decide (committed < offset)

/-- Python `dict.update(entries)` on a mapping embedded as a function:
later entries win. -/
def dictUpdate {β : Type} (f : TP → β) : List (TP × β) → TP → β
  | [], tp => f tp
  | (t, v) :: rest, tp => dictUpdate (fun u => if u = t then v else f u) rest tp

/-- The comprehension in `Consumer.perform_seek` that drops the entries of
the driver's `seek_to_committed()` result whose offset is `None`. -/
def seekEntries : List (TP × Option Int) → List (TP × Int)
  | [] => []
  | (_, none) :: rest => seekEntries rest
  | (t, some o) :: rest => (t, o) :: seekEntries rest

/-- `Consumer.perform_seek()`: from the driver's `seek_to_committed()`
result, drop `None` offsets, update `read_offset` with
`offset if offset else None` (0 is falsy, so it becomes `None`) and update
`committed_offset` with the raw offsets. -/
def perform_seek (s : ConsumerState)
    (driver_committed : List (TP × Option Int)) : ConsumerState :=
  let committed_offsets := seekEntries driver_committed
  { s with
    read_offset :=
      dictUpdate s.read_offset
        (committed_offsets.map fun p => (p.1, if p.2 = 0 then none else some p.2))
    committed_offset :=
      dictUpdate s.committed_offset
        (committed_offsets.map fun p => (p.1, some p.2)) }

/-- `Consumer._set_active_tps(tps)`: copy `tps`, remove the paused
partitions, store and return the result. -/
def set_active_tps (s : ConsumerState) (tps : Finset TP) :
    Finset TP × ConsumerState :=
  let xtps := tps \ s.paused_partitions
  (xtps, { s with active_partitions := some xtps })

/-- `Consumer._get_active_partitions()`: lazily derive the active set from
`assignment()` minus paused on first use. -/
def get_active_partitions (s : ConsumerState) (assignment : Finset TP) :
    Finset TP × ConsumerState :=
  match s.active_partitions with
  | none => set_active_tps s assignment
  | some tps => (tps, s)

/-- `Consumer.pause_partitions(tps)`: remove `tps` from the active set
(mutated in place, so the stored set changes too) and add them to the
paused set. -/
def pause_partitions (s : ConsumerState) (assignment : Finset TP)
    (tps : Finset TP) : ConsumerState :=
  let step := get_active_partitions s assignment
  { step.2 with
    active_partitions := some (step.1 \ tps)
    paused_partitions := step.2.paused_partitions ∪ tps }

/-- `Consumer.resume_partitions(tps)`: add `tps` to the active set and
remove them from the paused set. -/
def resume_partitions (s : ConsumerState) (assignment : Finset TP)
    (tps : Finset TP) : ConsumerState :=
  let step := get_active_partitions s assignment
  { step.2 with
    active_partitions := some (step.1 ∪ tps)
    paused_partitions := step.2.paused_partitions \ tps }

/-- Outcome of `Consumer._commit_offsets(offsets)`: the argument of the
driver `_commit` call if one was made, the revoked entries that were only
logged, the return value, and the updated state. -/
structure CommitOffsetsResult where
  driver_call : Option (List (TP × Int))
  logged_revoked : List (TP × Int)
  ret : Bool
  state : ConsumerState

/-- `Consumer._commit_offsets(offsets)`: split `offsets` by the current
`assignment()`; entries for revoked partitions are logged and discarded;
if nothing commitable remains return `False` without calling the driver;
otherwise call the driver `_commit` and record the commitable offsets in
`committed_offset`. -/
def commit_offsets_step (s : ConsumerState) (assignment : Finset TP)
    (offsets : List (TP × Int)) : CommitOffsetsResult :=
  let commitable := offsets.filter fun p => decide (p.1 ∈ assignment)
  let revoked := offsets.filter fun p => decide (p.1 ∉ assignment)
  if commitable = [] then
    ⟨none, revoked, false, s⟩
  else
    ⟨some commitable, revoked, true,
      { s with
        committed_offset :=
          dictUpdate s.committed_offset
            (commitable.map fun p => (p.1, some p.2)) }⟩

/-- `Consumer._filter_committable_offsets(tps)`: for each tp compute
`_new_offset` (which mutates the ledger) and keep the offset when
`_should_commit` accepts it. -/
def filter_committable_offsets :
    ConsumerState → List TP → List (TP × Int) × ConsumerState
  | s, [] => ([], s)
  | s, tp :: rest =>
    let step := new_offset s tp
    let next := filter_committable_offsets step.2 rest
    match step.1 with
    | some offset =>
      if should_commit step.2 tp offset then ((tp, offset) :: next.1, next.2)
      else next
    | none => next

/-- Outcome of `Consumer._commit_tps(tps)`. -/
structure CommitTpsResult where
  crashed : Bool
  driver_call : Option (List (TP × Int))
  ret : Bool
  state : ConsumerState

/-- `Consumer._commit_tps(tps)`: filter the committable offsets; if there
are any, flush the attached producer work (`producer_ok = false` means
`_handle_attached` raised `ProducerSendError`, upon which the service
crashes and no driver commit happens); otherwise run `_commit_offsets`. -/
def commit_tps (s : ConsumerState) (assignment : Finset TP) (tps : List TP)
    (producer_ok : Bool) : CommitTpsResult :=
  let filtered := filter_committable_offsets s tps
  if filtered.1 = [] then ⟨false, none, false, filtered.2⟩
  else if producer_ok then
    let r := commit_offsets_step filtered.2 assignment filtered.1
    ⟨false, r.driver_call, r.ret, r.state⟩
  else ⟨true, none, false, filtered.2⟩

/-- The ledger-mutating operations of the consumer, for lifetime traces. -/
inductive LedgerOp
  | ackOp (cfg : AppConfig) (m : Message)
  | newOffsetOp (tp : TP)
  | commitOp (assignment : Finset TP) (tps : List TP) (producer_ok : Bool)
  | pauseOp (assignment : Finset TP) (tps : Finset TP)
  | resumeOp (assignment : Finset TP) (tps : Finset TP)

/-- The state effect of one `LedgerOp`. -/
def applyOp (s : ConsumerState) : LedgerOp → ConsumerState
  | LedgerOp.ackOp cfg m => (ack cfg s m).2.2
  | LedgerOp.newOffsetOp tp => (new_offset s tp).2
  | LedgerOp.commitOp assignment tps ok => (commit_tps s assignment tps ok).state
  | LedgerOp.pauseOp assignment tps => pause_partitions s assignment tps
  | LedgerOp.resumeOp assignment tps => resume_partitions s assignment tps

/-- Run a trace of ledger operations. -/
def runOps (s : ConsumerState) : List LedgerOp → ConsumerState
  | [] => s
  | op :: rest => runOps (applyOp s op) rest

/-- `committed_offset` never decreases from `s` to `s'`. -/
def CommittedMono (s s' : ConsumerState) : Prop :=
  ∀ tp v, s.committed_offset tp = some v →
    ∃ v', s'.committed_offset tp = some v' ∧ v ≤ v'

/-- Outcome of awaiting the pending commit future in
`Consumer.maybe_wait_for_commit_to_finish`. -/
inductive FutOutcome
  | completedOk
  | cancelled
deriving DecidableEq

/-- `Consumer.maybe_wait_for_commit_to_finish()`: `True` iff a commit
future was installed and awaiting it did not raise `CancelledError`. -/
def maybe_wait_for_commit_to_finish : Option FutOutcome → Bool
  | none => false
  | some FutOutcome.completedOk => true
  | some FutOutcome.cancelled => false

/-- `Consumer.commit(topics)` control flow: given the state of
`_commit_fut` and the value `force_commit` would return, yields whether
`force_commit` ran and the value `commit` returns. -/
def commit_call (fut : Option FutOutcome) (force_commit_ret : Bool) :
    Bool × Bool :=
  if maybe_wait_for_commit_to_finish fut then (false, false)
  else (true, force_commit_ret)

/-- Where a task currently inside `Consumer.commit` stands. -/
inductive CommitTask
  | ready
  | waiting
  | running
  | finished (ret : Bool)
deriving DecidableEq

/-- The commit single-writer discipline of `Consumer.commit`: the tasks
concurrently calling `commit` plus the `_commit_fut` slot
(`futInstalled`).  A driver commit is in flight exactly while a task is
`running` inside `force_commit`. -/
structure CommitSys where
  tasks : List CommitTask
  futInstalled : Bool

/-- One cooperative scheduling step of `Consumer.commit` (no external
cancellation of `_commit_fut`): a `ready` task that sees no installed
future installs one and enters `force_commit`; a `ready` task that sees an
installed future awaits it; a `running` task finishes, clears the slot and
resolves the future; a `waiting` task whose awaited future resolved
returns `False` without having committed. -/
inductive CommitStep : CommitSys → CommitSys → Prop
  | leaderBegin (pre post : List CommitTask) :
      CommitStep ⟨pre ++ CommitTask.ready :: post, false⟩
        ⟨pre ++ CommitTask.running :: post, true⟩
  | followerBegin (pre post : List CommitTask) :
      CommitStep ⟨pre ++ CommitTask.ready :: post, true⟩
        ⟨pre ++ CommitTask.waiting :: post, true⟩
  | leaderFinish (pre post : List CommitTask) (ret : Bool) :
      CommitStep ⟨pre ++ CommitTask.running :: post, true⟩
        ⟨pre ++ CommitTask.finished ret :: post, false⟩
  | followerFinish (pre post : List CommitTask) :
      CommitStep ⟨pre ++ CommitTask.waiting :: post, false⟩
        ⟨pre ++ CommitTask.finished false :: post, false⟩

/-- Reflexive-transitive closure of `CommitStep`. -/
inductive CommitReach : CommitSys → CommitSys → Prop
  | refl (s : CommitSys) : CommitReach s s
  | tail {s t u : CommitSys} :
      CommitReach s t → CommitStep t u → CommitReach s u

/-- Number of driver commits in flight. -/
def countRunning (l : List CommitTask) : Nat :=
  l.countP fun t => decide (t = CommitTask.running)

/-- The single-writer invariant of the commit system: at most one driver
commit in flight, and none while no future is installed. -/
def CommitInv (sys : CommitSys) : Prop :=
  countRunning sys.tasks ≤ 1 ∧
    (sys.futInstalled = false → countRunning sys.tasks = 0)

/-- Sample topic-partitions for concrete instantiations. -/
def tpA : TP := ⟨"t", 0⟩

/-- A second sample topic-partition. -/
def tpB : TP := ⟨"u", 1⟩

/-- The all-empty consumer state (the state right after `__init__`). -/
def initialState : ConsumerState :=
  { acked := fun _ => []
    acked_index := fun _ => ∅
    read_offset := fun _ => none
    committed_offset := fun _ => none
    unacked_messages := ∅
    n_acked := 0
    active_partitions := none
    paused_partitions := ∅ }

/-- A configuration with acks enabled for every topic. -/
def cfgAllAcks : AppConfig := ⟨fun _ => true⟩

/-- A configuration with acks disabled for every topic. -/
def cfgNoAcks : AppConfig := ⟨fun _ => false⟩

/-- A fresh, unacked sample message on `tpA`. -/
def msgA : Message := ⟨0, tpA, 5, "t", false⟩

/-- State whose only ledger content is `acked[tpA] = [34,35,36,40,41]`. -/
def stateC1 : ConsumerState :=
  { initialState with
    acked := fun t => if t = tpA then [34, 35, 36, 40, 41] else [] }

/-- State with `acked[tpA] = [2,3]` and `committed_offset[tpA] = 1`. -/
def stateC3 : ConsumerState :=
  { initialState with
    acked := fun t => if t = tpA then [2, 3] else []
    committed_offset := fun t => if t = tpA then some 1 else none }

/-- State with a single acked offset `5` on `tpA`. -/
def stateC6 : ConsumerState :=
  { initialState with
    acked := fun t => if t = tpA then [5] else [] }

/-- State with `committed_offset[tpA] = 3`. -/
def stateC7 : ConsumerState :=
  { initialState with
    committed_offset := fun t => if t = tpA then some 3 else none }

/-- State with an empty materialized active set. -/
def stateC9 : ConsumerState :=
  { initialState with active_partitions := some ∅ }

/-- State with materialized active set `{tpA}`. -/
def stateC9w : ConsumerState :=
  { initialState with active_partitions := some {tpA} }

theorem runFrom_length (a : Int) (n : Nat) : (runFrom a n).length = n := by
  induction n generalizing a with
  | zero => rfl
  | succ n ih => simp [runFrom, ih]

theorem runFrom_getLastD (a : Int) (n : Nat) (d : Int) :
    (runFrom a (n + 1)).getLastD d = a + n := by
  induction n generalizing a d with
  | zero => simp [runFrom]
  | succ n ih =>
    show (a :: runFrom (a + 1) (n + 1)).getLastD d = a + (n + 1 : Nat)
    rw [List.getLastD_cons, ih]
    push_cast
    ring

/-- `consecRunFrom prev l` is a run `prev+1, …, prev+n`, it is an initial
segment of `l`, and the element of `l` right after it (if any) breaks the
run. -/
theorem consecRunFrom_spec (l : List Int) (a : Int) :
    ∃ n : Nat, consecRunFrom a l = runFrom (a + 1) n ∧
      runFrom (a + 1) n ++ l.drop n = l ∧
      ∀ b, (l.drop n).head? = some b → b ≠ a + 1 + n := by
  induction l generalizing a with
  | nil =>
    refine ⟨0, rfl, rfl, ?_⟩
    intro b hb
    simp at hb
  | cons y ys ih =>
    by_cases hy : y = a + 1
    · subst hy
      obtain ⟨n, hrun, happ, hhead⟩ := ih (a + 1)
      refine ⟨n + 1, ?_, ?_, ?_⟩
      · show (if (a + 1) = a + 1 then (a + 1) :: consecRunFrom (a + 1) ys else [])
            = runFrom (a + 1) (n + 1)
        rw [if_pos rfl, hrun]
        rfl
      · show (a + 1) :: runFrom (a + 1 + 1) n ++ ((a + 1) :: ys).drop (n + 1)
            = (a + 1) :: ys
        simp only [List.drop_succ_cons, List.cons_append, happ]
      · intro b hb
        simp only [List.drop_succ_cons] at hb
        have := hhead b hb
        push_cast at this ⊢
        intro hc
        apply this
        linarith
    · refine ⟨0, ?_, rfl, ?_⟩
      · simp [consecRunFrom, hy, runFrom]
      · intro b hb
        simp only [List.drop_zero, List.head?_cons, Option.some.injEq] at hb
        subst hb
        simpa using hy

theorem sortAcked_eq_nil_iff (l : List Int) : sortAcked l = [] ↔ l = [] := by
  have hp : List.Perm (sortAcked l) l := List.perm_insertionSort _ l
  have hl := hp.length_eq
  constructor
  · intro h
    rw [h] at hl
    exact List.length_eq_zero.mp hl.symm
  · intro h
    subst h
    rfl

theorem sortAcked_sorted (l : List Int) : (sortAcked l).Sorted (· ≤ ·) :=
  List.sorted_insertionSort _ l

/-- Claim C1: for every topic-partition `tp` with non-empty `acked[tp]`,
`_new_offset` sorts `acked[tp]`, removes exactly the leading maximal run of
consecutive integers `a0, a0+1, …, a0+k` (where `a0` is the minimum of
`acked[tp]`) from both `acked[tp]` and `acked_index[tp]`, and returns the
run's last element `a0+k`; on `acked = [34,35,36,40,41]` it returns `36`
leaving `[40,41]`; on empty `acked[tp]` it returns `none`. -/
theorem C1_new_offset_extracts_leading_run :
    (∀ (s : ConsumerState) (tp : TP), s.acked tp ≠ [] →
      ∃ (a0 : Int) (k : Nat) (rest : List Int),
        sortAcked (s.acked tp) = runFrom a0 (k + 1) ++ rest ∧
        (∀ x ∈ s.acked tp, a0 ≤ x) ∧
        (∀ b, rest.head? = some b → b ≠ a0 + k + 1) ∧
        (new_offset s tp).1 = some (a0 + k) ∧
        ((new_offset s tp).2).acked tp = rest ∧
        ((new_offset s tp).2).acked_index tp
          = s.acked_index tp \ (runFrom a0 (k + 1)).toFinset) ∧
    (∀ (s : ConsumerState) (tp : TP), s.acked tp = [] →
      new_offset s tp = (none, s)) ∧
    (∀ (s : ConsumerState) (tp : TP), s.acked tp = [34, 35, 36, 40, 41] →
      (new_offset s tp).1 = some 36 ∧
      ((new_offset s tp).2).acked tp = [40, 41]) := by
  refine ⟨?_, ?_, ?_⟩
  · intro s tp h
    obtain ⟨x, xs, hs⟩ : ∃ x xs, sortAcked (s.acked tp) = x :: xs := by
      cases hq : sortAcked (s.acked tp) with
      | nil => exact absurd ((sortAcked_eq_nil_iff _).mp hq) h
      | cons x xs => exact ⟨x, xs, rfl⟩
    obtain ⟨n, hrun, happ, hhead⟩ := consecRunFrom_spec xs x
    have hbatch : x :: consecRunFrom x xs = runFrom x (n + 1) := by
      rw [hrun]
      rfl
    have hnew : new_offset s tp =
        (some ((x :: consecRunFrom x xs).getLastD 0),
          { s with
            acked := fun t =>
              if t = tp then (x :: xs).drop (x :: consecRunFrom x xs).length
              else s.acked t
            acked_index := fun t =>
              if t = tp then s.acked_index tp \ (x :: consecRunFrom x xs).toFinset
              else s.acked_index t }) := by
      unfold new_offset
      rw [hs]
    refine ⟨x, n, xs.drop n, ?_, ?_, ?_, ?_, ?_, ?_⟩
    · rw [hs, show runFrom x (n + 1) = x :: runFrom (x + 1) n from rfl]
      simp only [List.cons_append, happ]
    · intro y hy
      have hy' : y ∈ x :: xs := by
        rw [← hs]
        exact ((List.perm_insertionSort (· ≤ ·) (s.acked tp)).mem_iff).mpr hy
      have hsorted : (x :: xs).Sorted (· ≤ ·) := by
        rw [← hs]
        exact sortAcked_sorted _
      rcases List.mem_cons.mp hy' with h1 | h1
      · exact le_of_eq h1.symm
      · exact (List.sorted_cons.mp hsorted).1 y h1
    · intro b hb
      have := hhead b hb
      intro hc
      apply this
      rw [hc]
      ring
    · rw [hnew, hbatch]
      simp only [runFrom_getLastD]
    · rw [hnew]
      simp [hbatch, runFrom_length]
    · rw [hnew]
      simp [hbatch]
  · intro s tp h
    unfold new_offset
    rw [h]
    rfl
  · intro s tp h
    have hsort : sortAcked [34, 35, 36, 40, 41] = [34, 35, 36, 40, 41] := by
      decide
    have hnew : new_offset s tp =
        (some ((34 :: consecRunFrom 34 [35, 36, 40, 41]).getLastD 0),
          { s with
            acked := fun t =>
              if t = tp then
                ([34, 35, 36, 40, 41] : List Int).drop
                  (34 :: consecRunFrom 34 [35, 36, 40, 41]).length
              else s.acked t
            acked_index := fun t =>
              if t = tp then
                s.acked_index tp \ (34 :: consecRunFrom 34 [35, 36, 40, 41]).toFinset
              else s.acked_index t }) := by
      unfold new_offset
      rw [h, hsort]
    rw [hnew]
    constructor
    · show some ((34 :: consecRunFrom 34 [35, 36, 40, 41]).getLastD 0) = some 36
      decide
    · show (if tp = tp then
          ([34, 35, 36, 40, 41] : List Int).drop
            (34 :: consecRunFrom 34 [35, 36, 40, 41]).length
        else s.acked tp) = [40, 41]
      rw [if_pos rfl]
      decide

/-- Witness for claim C1 at `acked[tpA] = [34,35,36,40,41]`. -/
theorem C1_witness :
    ∃ (a0 : Int) (k : Nat) (rest : List Int),
      sortAcked (stateC1.acked tpA) = runFrom a0 (k + 1) ++ rest ∧
      (∀ x ∈ stateC1.acked tpA, a0 ≤ x) ∧
      (∀ b, rest.head? = some b → b ≠ a0 + k + 1) ∧
      (new_offset stateC1 tpA).1 = some (a0 + k) ∧
      ((new_offset stateC1 tpA).2).acked tpA = rest ∧
      ((new_offset stateC1 tpA).2).acked_index tpA
        = stateC1.acked_index tpA \ (runFrom a0 (k + 1)).toFinset :=
  C1_new_offset_extracts_leading_run.1 stateC1 tpA (by decide)

theorem ack_of_acked (cfg : AppConfig) (s : ConsumerState) (m : Message)
    (h : m.acked = true) : ack cfg s m = (false, m, s) := by
  unfold ack
  rw [if_pos h]

theorem ack_result_message (cfg : AppConfig) (s : ConsumerState) (m : Message)
    (h : m.acked = false) : (ack cfg s m).2.1 = { m with acked := true } := by
  unfold ack
  rw [if_neg (by simp [h])]
  dsimp only
  repeat' split
  all_goals rfl

theorem ack_result_acked (cfg : AppConfig) (s : ConsumerState) (m : Message) :
    ((ack cfg s m).2.1).acked = true := by
  by_cases h : m.acked = true
  · rw [ack_of_acked cfg s m h]
    exact h
  · rw [ack_result_message cfg s m (by simpa using h)]

/-- Claim C2 counterexample: with acks disabled for the topic, the first
`ack` flips `acked`, the offset is unrecorded and `committed_offset` is
unknown, yet `ack` returns `False` — refuting the claimed equivalence at
this input. -/
theorem C2_counterexample :
    ¬ ((ack cfgNoAcks initialState msgA).1 = true ↔
        (msgA.acked = false ∧
         ((ack cfgNoAcks initialState msgA).2.1).acked = true ∧
         msgA.offset ∉ initialState.acked_index msgA.tp ∧
         (∀ c, initialState.committed_offset msgA.tp = some c →
            c < msgA.offset))) := by
  intro h
  have hres : (ack cfgNoAcks initialState msgA).1 = false := by decide
  have htrue := h.mpr
    ⟨rfl, by decide, by decide, fun c hc => by simp [initialState] at hc⟩
  rw [hres] at htrue
  exact absurd htrue (by simp)

theorem ack_fst_true_iff (cfg : AppConfig) (s : ConsumerState) (m : Message) :
    (ack cfg s m).1 = true ↔
      (m.acked = false ∧ cfg.acks_enabled_for m.topic = true ∧
       m.offset ∉ s.acked_index m.tp ∧
       (∀ c, s.committed_offset m.tp = some c → c < m.offset)) := by
  by_cases hm : m.acked = true
  · rw [ack_of_acked cfg s m hm]
    apply iff_of_false
    · simp
    · rintro ⟨hf, -⟩
      rw [hm] at hf
      exact Bool.noConfusion hf
  · have hm' : m.acked = false := by simpa using hm
    unfold ack
    rw [if_neg (by simp [hm'])]
    dsimp only
    by_cases he : cfg.acks_enabled_for m.topic = true
    · rw [if_pos he]
      cases hc : s.committed_offset m.tp with
      | none =>
        dsimp only
        by_cases hidx : m.offset ∈ s.acked_index m.tp
        · rw [if_pos rfl, if_pos hidx]
          apply iff_of_false
          · simp
          · rintro ⟨-, -, hn, -⟩
            exact hn hidx
        · rw [if_pos rfl, if_neg hidx]
          apply iff_of_true rfl
          refine ⟨hm', he, hidx, fun c hcc => ?_⟩
          exact Option.noConfusion hcc
      | some committed =>
        dsimp only
        by_cases hlt : committed < m.offset
        · rw [if_pos (by simpa using hlt)]
          by_cases hidx : m.offset ∈ s.acked_index m.tp
          · rw [if_pos hidx]
            apply iff_of_false
            · simp
            · rintro ⟨-, -, hn, -⟩
              exact hn hidx
          · rw [if_neg hidx]
            apply iff_of_true rfl
            refine ⟨hm', he, hidx, fun c hcc => ?_⟩
            injection hcc with hcc
            rw [← hcc]
            exact hlt
        · rw [if_neg (by simpa using hlt)]
          apply iff_of_false
          · simp
          · rintro ⟨-, -, -, hall⟩
            exact hlt (hall committed rfl)
    · rw [if_neg he]
      apply iff_of_false
      · simp
      · rintro ⟨-, hE, -⟩
        exact he hE

/-- Claim C2 (amended): `ack(m)` returns true iff it flips `m.acked` from
false to true AND acks are enabled for `m.topic` AND `m.offset` is not
already in `acked_index[m.tp]` AND `committed_offset[m.tp]` is unknown or
strictly less than `m.offset`; and a second `ack(m)` immediately after a
first always returns false and leaves the message and the ledger
unchanged. -/
theorem C2_ack_iff_and_idempotent :
    (∀ (cfg : AppConfig) (s : ConsumerState) (m : Message),
      (ack cfg s m).1 = true ↔
        (m.acked = false ∧ ((ack cfg s m).2.1).acked = true ∧
         cfg.acks_enabled_for m.topic = true ∧
         m.offset ∉ s.acked_index m.tp ∧
         (∀ c, s.committed_offset m.tp = some c → c < m.offset))) ∧
    (∀ (cfg : AppConfig) (s : ConsumerState) (m : Message),
      ack cfg ((ack cfg s m).2.2) ((ack cfg s m).2.1) =
        (false, (ack cfg s m).2.1, (ack cfg s m).2.2)) := by
  constructor
  · intro cfg s m
    have hres := ack_result_acked cfg s m
    constructor
    · intro h1
      obtain ⟨h2, h3, h4, h5⟩ := (ack_fst_true_iff cfg s m).mp h1
      exact ⟨h2, hres, h3, h4, h5⟩
    · rintro ⟨h2, -, h3, h4, h5⟩
      exact (ack_fst_true_iff cfg s m).mpr ⟨h2, h3, h4, h5⟩
  · intro cfg s m
    exact ack_of_acked cfg _ _ (ack_result_acked cfg s m)

/-- Witness for claim C2: a fresh message on an acks-enabled topic is
positively acked. -/
theorem C2_witness : (ack cfgAllAcks initialState msgA).1 = true :=
  (C2_ack_iff_and_idempotent.1 cfgAllAcks initialState msgA).mpr
    ⟨rfl, by decide, rfl, by decide, fun c hc => by simp [initialState] at hc⟩

/-- Claim C10: first `ack` on a message of a topic without acks enabled
still flips `m.acked` to true yet returns false and leaves the whole
ledger state unchanged; a repeated `ack` is also a returns-false no-op, so
the offset is never recorded and can never contribute to a commit. -/
theorem C10_ack_disabled_topic (cfg : AppConfig) (s : ConsumerState)
    (m : Message) (h1 : cfg.acks_enabled_for m.topic = false)
    (h2 : m.acked = false) :
    ack cfg s m = (false, { m with acked := true }, s) ∧
    ack cfg s { m with acked := true } =
      (false, { m with acked := true }, s) := by
  constructor
  · unfold ack
    rw [if_neg (by simp [h2]), if_neg (by simp [h1])]
  · exact ack_of_acked cfg s _ rfl

/-- Witness for claim C10. -/
theorem C10_witness :
    ack cfgNoAcks initialState msgA
      = (false, { msgA with acked := true }, initialState) ∧
    ack cfgNoAcks initialState { msgA with acked := true }
      = (false, { msgA with acked := true }, initialState) :=
  C10_ack_disabled_topic cfgNoAcks initialState msgA rfl rfl

theorem dictUpdate_not_mem {β : Type} (f : TP → β) (l : List (TP × β))
    (tp : TP) (h : tp ∉ l.map Prod.fst) : dictUpdate f l tp = f tp := by
  induction l generalizing f with
  | nil => rfl
  | cons p rest ih =>
    obtain ⟨t, v⟩ := p
    simp only [List.map_cons, List.mem_cons, not_or] at h
    simp only [dictUpdate]
    rw [ih _ h.2]
    simp [h.1]

theorem dictUpdate_mem_of_nodup {β : Type} (f : TP → β) (l : List (TP × β))
    (tp : TP) (v : β) (hnd : (l.map Prod.fst).Nodup) (h : (tp, v) ∈ l) :
    dictUpdate f l tp = v := by
  induction l generalizing f with
  | nil => cases h
  | cons p rest ih =>
    obtain ⟨t, w⟩ := p
    simp only [List.map_cons, List.nodup_cons] at hnd
    rcases List.mem_cons.mp h with h1 | h1
    · injection h1 with h2 h3
      subst h2
      subst h3
      simp only [dictUpdate]
      rw [dictUpdate_not_mem _ _ _ hnd.1]
      simp
    · simp only [dictUpdate]
      exact ih _ hnd.2 h1

theorem dictUpdate_cases {β : Type} (f : TP → β) (l : List (TP × β))
    (tp : TP) :
    dictUpdate f l tp = f tp ∨
      ∃ v, (tp, v) ∈ l ∧ dictUpdate f l tp = v := by
  induction l generalizing f with
  | nil => exact Or.inl rfl
  | cons p rest ih =>
    obtain ⟨t, w⟩ := p
    simp only [dictUpdate]
    rcases ih (fun u => if u = t then w else f u) with h | ⟨v, hv, he⟩
    · rw [h]
      by_cases ht : tp = t
      · exact Or.inr ⟨w, by simp [ht], by simp [ht]⟩
      · exact Or.inl (by simp [ht])
    · exact Or.inr ⟨v, List.mem_cons_of_mem _ hv, he⟩

theorem map_pair_keys {γ : Type} (g : TP × Int → γ) (l : List (TP × Int)) :
    ((l.map fun p => (p.1, g p)).map Prod.fst) = l.map Prod.fst := by
  induction l with
  | nil => rfl
  | cons p rest ih => simp [ih]

/-- Claim C7: `_should_commit(tp, offset)` is true iff
`committed_offset[tp]` is unknown or `offset` strictly exceeds it, under
the data-model invariant that defined committed offsets are non-negative
(the extra `bool(offset)` conjunct in the source can only reject
`offset = 0`, which a non-negative committed offset already rejects). -/
theorem C7_should_commit_iff (s : ConsumerState) (tp : TP) (offset : Int)
    (h : ∀ c, s.committed_offset tp = some c → 0 ≤ c) :
    should_commit s tp offset = true ↔
      (s.committed_offset tp = none ∨
       ∃ c, s.committed_offset tp = some c ∧ c < offset) := by
  unfold should_commit
  cases hc : s.committed_offset tp with
  | none => simp
  | some c =>
    have hc0 := h c hc
    dsimp only
    simp only [Bool.and_eq_true, decide_eq_true_eq]
    constructor
    · rintro ⟨-, hlt⟩
      exact Or.inr ⟨c, rfl, hlt⟩
    · rintro (h1 | ⟨c', hc', hlt⟩)
      · exact Option.noConfusion h1
      · injection hc' with h2
        subst h2
        exact ⟨by omega, hlt⟩

/-- Witness for claim C7 at `committed_offset[tpA] = 3`, `offset = 5`. -/
theorem C7_witness :
    should_commit stateC7 tpA 5 = true ↔
      (stateC7.committed_offset tpA = none ∨
       ∃ c, stateC7.committed_offset tpA = some c ∧ c < 5) :=
  C7_should_commit_iff stateC7 tpA 5 (fun c hc => by
    simp [stateC7, initialState] at hc
    omega)

/-- Claim C5: `_commit_offsets` passes only currently-assigned
topic-partitions to the driver commit and records only those in
`committed_offset`; unassigned entries are discarded with a log entry and
never committed; if no assigned entry remains it returns `False` without
calling the driver. -/
theorem C5_commit_offsets_assignment_filter (s : ConsumerState)
    (assignment : Finset TP) (offsets : List (TP × Int)) :
    (∀ l, (commit_offsets_step s assignment offsets).driver_call = some l →
      ∀ p ∈ l, p.1 ∈ assignment) ∧
    (∀ tp, tp ∉ assignment →
      (commit_offsets_step s assignment offsets).state.committed_offset tp
        = s.committed_offset tp) ∧
    (∀ p ∈ (commit_offsets_step s assignment offsets).logged_revoked,
      p.1 ∉ assignment) ∧
    ((∀ p ∈ offsets, p.1 ∉ assignment) →
      commit_offsets_step s assignment offsets
        = ⟨none, offsets, false, s⟩) := by
  unfold commit_offsets_step
  by_cases he : offsets.filter (fun p => decide (p.1 ∈ assignment)) = []
  · rw [if_pos he]
    refine ⟨?_, ?_, ?_, ?_⟩
    · intro l hl
      exact Option.noConfusion hl
    · intro tp _
      rfl
    · intro p hp
      have h2 := (List.mem_filter.mp hp).2
      simpa using h2
    · intro hall
      have hrev : offsets.filter (fun p => decide (p.1 ∉ assignment)) = offsets :=
        List.filter_eq_self.mpr (fun p hp => by simpa using hall p hp)
      rw [hrev]
  · rw [if_neg he]
    refine ⟨?_, ?_, ?_, ?_⟩
    · intro l hl p hp
      injection hl with hl
      rw [← hl] at hp
      have h2 := (List.mem_filter.mp hp).2
      simpa using h2
    · intro tp htp
      dsimp only
      apply dictUpdate_not_mem
      rw [map_pair_keys]
      intro hmem
      obtain ⟨p, hp, hpe⟩ := List.mem_map.mp hmem
      have h2 := (List.mem_filter.mp hp).2
      rw [hpe] at h2
      exact htp (by simpa using h2)
    · intro p hp
      have h2 := (List.mem_filter.mp hp).2
      simpa using h2
    · intro hall
      exfalso
      apply he
      exact List.filter_eq_nil_iff.mpr (fun p hp => by simp [hall p hp])

/-- Witness for claim C5: a single unassigned entry is discarded and the
procedure returns `False` with no driver call and no state change. -/
theorem C5_witness :
    commit_offsets_step initialState ∅ [(tpA, 5)]
      = ⟨none, [(tpA, 5)], false, initialState⟩ :=
  (C5_commit_offsets_assignment_filter initialState ∅ [(tpA, 5)]).2.2.2
    (by decide)

theorem new_offset_committed (s : ConsumerState) (tp : TP) :
    ((new_offset s tp).2).committed_offset = s.committed_offset := by
  unfold new_offset
  cases sortAcked (s.acked tp) with
  | nil => rfl
  | cons x xs => rfl

theorem should_commit_congr {s s' : ConsumerState}
    (h : s'.committed_offset = s.committed_offset) (tp : TP) (offset : Int) :
    should_commit s' tp offset = should_commit s tp offset := by
  unfold should_commit
  rw [h]

theorem should_commit_lt {s : ConsumerState} {tp : TP} {offset v : Int}
    (h : should_commit s tp offset = true)
    (hv : s.committed_offset tp = some v) : v < offset := by
  unfold should_commit at h
  rw [hv] at h
  dsimp only at h
  simp only [Bool.and_eq_true, decide_eq_true_eq] at h
  exact h.2

theorem filter_committable_spec (tps : List TP) (s : ConsumerState) :
    ((filter_committable_offsets s tps).2).committed_offset
      = s.committed_offset ∧
    ∀ p ∈ (filter_committable_offsets s tps).1,
      should_commit s p.1 p.2 = true := by
  induction tps generalizing s with
  | nil => exact ⟨rfl, fun p hp => absurd hp (List.not_mem_nil p)⟩
  | cons tp rest ih =>
    obtain ⟨ih1, ih2⟩ := ih (new_offset s tp).2
    have hco := new_offset_committed s tp
    have hcomb :
        ((filter_committable_offsets (new_offset s tp).2 rest).2).committed_offset
          = s.committed_offset := by
      rw [ih1, hco]
    simp only [filter_committable_offsets]
    cases ho : (new_offset s tp).1 with
    | none =>
      dsimp only
      refine ⟨hcomb, fun p hp => ?_⟩
      rw [← should_commit_congr hco]
      exact ih2 p hp
    | some offset =>
      dsimp only
      by_cases hsc : should_commit (new_offset s tp).2 tp offset = true
      · rw [if_pos hsc]
        refine ⟨hcomb, fun p hp => ?_⟩
        rcases List.mem_cons.mp hp with h1 | h1
        · subst h1
          dsimp only
          rw [← should_commit_congr hco]
          exact hsc
        · rw [← should_commit_congr hco]
          exact ih2 p h1
      · rw [if_neg hsc]
        refine ⟨hcomb, fun p hp => ?_⟩
        rw [← should_commit_congr hco]
        exact ih2 p hp

/-- Claim C6: if flushing the attached producer work raises
`ProducerSendError` during a commit, the consumer crashes, the driver
commit is not invoked, and `committed_offset` is unchanged for every
topic-partition (error atomicity: no commit occurred). -/
theorem C6_producer_error_atomicity (s : ConsumerState)
    (assignment : Finset TP) (tps : List TP)
    (h : (filter_committable_offsets s tps).1 ≠ []) :
    (commit_tps s assignment tps false).crashed = true ∧
    (commit_tps s assignment tps false).driver_call = none ∧
    (commit_tps s assignment tps false).ret = false ∧
    (commit_tps s assignment tps false).state.committed_offset
      = s.committed_offset := by
  unfold commit_tps
  dsimp only
  rw [if_neg h, if_neg Bool.false_ne_true]
  exact ⟨rfl, rfl, rfl, (filter_committable_spec tps s).1⟩

/-- Witness for claim C6: a pending acked offset plus a producer failure. -/
theorem C6_witness :
    (commit_tps stateC6 ∅ [tpA] false).crashed = true ∧
    (commit_tps stateC6 ∅ [tpA] false).driver_call = none ∧
    (commit_tps stateC6 ∅ [tpA] false).ret = false ∧
    (commit_tps stateC6 ∅ [tpA] false).state.committed_offset
      = stateC6.committed_offset :=
  C6_producer_error_atomicity stateC6 ∅ [tpA] (by decide)

theorem committedMono_refl_of_eq {s s' : ConsumerState}
    (h : s'.committed_offset = s.committed_offset) : CommittedMono s s' :=
  fun _ v hv => ⟨v, by rw [h]; exact hv, le_refl v⟩

theorem committedMono_trans {a b c : ConsumerState}
    (h1 : CommittedMono a b) (h2 : CommittedMono b c) : CommittedMono a c := by
  intro tp v hv
  obtain ⟨v', hv', hle⟩ := h1 tp v hv
  obtain ⟨v'', hv'', hle'⟩ := h2 tp v' hv'
  exact ⟨v'', hv'', le_trans hle hle'⟩

theorem ack_committed (cfg : AppConfig) (s : ConsumerState) (m : Message) :
    ((ack cfg s m).2.2).committed_offset = s.committed_offset := by
  unfold ack
  dsimp only
  repeat' split
  all_goals rfl

theorem pause_committed (s : ConsumerState) (assignment tps : Finset TP) :
    (pause_partitions s assignment tps).committed_offset
      = s.committed_offset := by
  unfold pause_partitions get_active_partitions set_active_tps
  cases s.active_partitions <;> rfl

theorem resume_committed (s : ConsumerState) (assignment tps : Finset TP) :
    (resume_partitions s assignment tps).committed_offset
      = s.committed_offset := by
  unfold resume_partitions get_active_partitions set_active_tps
  cases s.active_partitions <;> rfl

theorem commit_offsets_step_mono (s0 s : ConsumerState)
    (assignment : Finset TP) (offsets : List (TP × Int))
    (hc : s.committed_offset = s0.committed_offset)
    (hmem : ∀ p ∈ offsets, should_commit s0 p.1 p.2 = true) :
    CommittedMono s0 ((commit_offsets_step s assignment offsets).state) := by
  unfold commit_offsets_step
  by_cases he : offsets.filter (fun p => decide (p.1 ∈ assignment)) = []
  · rw [if_pos he]
    exact committedMono_refl_of_eq hc
  · rw [if_neg he]
    intro tp v hv
    dsimp only
    rcases dictUpdate_cases s.committed_offset
        ((offsets.filter fun p => decide (p.1 ∈ assignment)).map
          fun p => (p.1, some p.2)) tp with hcase | ⟨w, hw, hwe⟩
    · rw [hcase, hc]
      exact ⟨v, hv, le_refl v⟩
    · obtain ⟨q, hq, hqe⟩ := List.mem_map.mp hw
      injection hqe with hq1 hq2
      have hqo := hmem q (List.mem_filter.mp hq).1
      rw [hq1] at hqo
      have hlt := should_commit_lt hqo hv
      refine ⟨q.2, ?_, le_of_lt hlt⟩
      rw [hwe, ← hq2]

theorem commit_tps_mono (s : ConsumerState) (assignment : Finset TP)
    (tps : List TP) (ok : Bool) :
    CommittedMono s ((commit_tps s assignment tps ok).state) := by
  obtain ⟨hc, hmem⟩ := filter_committable_spec tps s
  unfold commit_tps
  dsimp only
  by_cases he : (filter_committable_offsets s tps).1 = []
  · rw [if_pos he]
    exact committedMono_refl_of_eq hc
  · rw [if_neg he]
    cases ok with
    | false =>
      rw [if_neg Bool.false_ne_true]
      exact committedMono_refl_of_eq hc
    | true =>
      rw [if_pos rfl]
      dsimp only
      exact commit_offsets_step_mono s (filter_committable_offsets s tps).2
        assignment (filter_committable_offsets s tps).1 hc hmem

theorem applyOp_mono (s : ConsumerState) (op : LedgerOp) :
    CommittedMono s (applyOp s op) := by
  cases op with
  | ackOp cfg m => exact committedMono_refl_of_eq (ack_committed cfg s m)
  | newOffsetOp tp => exact committedMono_refl_of_eq (new_offset_committed s tp)
  | commitOp assignment tps ok => exact commit_tps_mono s assignment tps ok
  | pauseOp assignment tps =>
    exact committedMono_refl_of_eq (pause_committed s assignment tps)
  | resumeOp assignment tps =>
    exact committedMono_refl_of_eq (resume_committed s assignment tps)

/-- Claim C3: `committed_offset[tp]` is monotonically non-decreasing along
any trace of the consumer's ledger operations: whenever it goes from a
defined value `v` to `v'`, then `v ≤ v'` (the commit path only records
offsets accepted by the `_should_commit` monotonicity check). -/
theorem C3_committed_offset_monotone (ops : List LedgerOp)
    (s : ConsumerState) : CommittedMono s (runOps s ops) := by
  induction ops generalizing s with
  | nil => exact fun _ v hv => ⟨v, hv, le_refl v⟩
  | cons op rest ih =>
    exact committedMono_trans (applyOp_mono s op) (ih (applyOp s op))

/-- Witness for claim C3: committing acked offsets `[2,3]` over
`committed_offset[tpA] = 1` yields a value at least `1`. -/
theorem C3_witness :
    ∃ v', (runOps stateC3 [LedgerOp.commitOp {tpA} [tpA] true]).committed_offset
        tpA = some v' ∧ (1 : Int) ≤ v' :=
  C3_committed_offset_monotone [LedgerOp.commitOp {tpA} [tpA] true] stateC3
    tpA 1 (by decide)

theorem countRunning_append (l1 l2 : List CommitTask) :
    countRunning (l1 ++ l2) = countRunning l1 + countRunning l2 := by
  unfold countRunning
  exact List.countP_append _ _ _

theorem countRunning_cons (t : CommitTask) (l : List CommitTask) :
    countRunning (t :: l)
      = countRunning l + (if t = CommitTask.running then 1 else 0) := by
  unfold countRunning
  rw [List.countP_cons]
  congr 1
  simp

theorem countRunning_eq_zero_of_ready (ts : List CommitTask)
    (h : ∀ t ∈ ts, t = CommitTask.ready) : countRunning ts = 0 := by
  induction ts with
  | nil => rfl
  | cons t rest ih =>
    rw [countRunning_cons, h t (List.mem_cons_self t rest)]
    simp [ih (fun x hx => h x (List.mem_cons_of_mem t hx))]

theorem commitStep_inv {s t : CommitSys} (h : CommitStep s t)
    (hi : CommitInv s) : CommitInv t := by
  obtain ⟨h1, h2⟩ := hi
  cases h with
  | leaderBegin pre post =>
    have h0 := h2 rfl
    simp [CommitInv, countRunning_append, countRunning_cons] at h0 h1 ⊢
    omega
  | followerBegin pre post =>
    simp [CommitInv, countRunning_append, countRunning_cons] at h1 ⊢
    omega
  | leaderFinish pre post ret =>
    simp [CommitInv, countRunning_append, countRunning_cons] at h1 ⊢
    omega
  | followerFinish pre post =>
    have h0 := h2 rfl
    simp [CommitInv, countRunning_append, countRunning_cons] at h0 h1 ⊢
    omega

/-- Claim C4: a `commit()` caller that finds a pending commit future
installed and sees it complete without cancellation returns `False`
without invoking `force_commit`; and along any schedule of concurrent
`commit` calls (absent external cancellation of `_commit_fut`) at most one
driver commit is in flight at any instant — a follower never performs its
own commit. -/
theorem C4_commit_coalescing :
    (∀ ret : Bool,
      commit_call (some FutOutcome.completedOk) ret = (false, false)) ∧
    (∀ (ts : List CommitTask) (sys : CommitSys),
      CommitReach ⟨ts, false⟩ sys →
      (∀ t ∈ ts, t = CommitTask.ready) →
      countRunning sys.tasks ≤ 1) := by
  constructor
  · intro ret
    rfl
  · intro ts sys hr hready
    have h0 := countRunning_eq_zero_of_ready ts hready
    have hinv : CommitInv ⟨ts, false⟩ := by
      constructor
      · show countRunning ts ≤ 1
        omega
      · intro _
        exact h0
    have hall : ∀ u, CommitReach ⟨ts, false⟩ u → CommitInv u := by
      intro u hu
      induction hu with
      | refl => exact hinv
      | tail hr2 hs2 ih => exact commitStep_inv hs2 ih
    exact (hall sys hr).1

/-- Witness for claim C4: two concurrent callers; the second becomes a
follower and only one driver commit is in flight. -/
theorem C4_witness :
    countRunning [CommitTask.running, CommitTask.waiting] ≤ 1 :=
  C4_commit_coalescing.2 [CommitTask.ready, CommitTask.ready]
    ⟨[CommitTask.running, CommitTask.waiting], true⟩
    (CommitReach.tail
      (CommitReach.tail (CommitReach.refl ⟨[CommitTask.ready, CommitTask.ready], false⟩)
        (CommitStep.leaderBegin [] [CommitTask.ready]))
      (CommitStep.followerBegin [CommitTask.running] []))
    (by decide)

theorem seekEntries_keys_sublist (l : List (TP × Option Int)) :
    List.Sublist ((seekEntries l).map Prod.fst) (l.map Prod.fst) := by
  induction l with
  | nil => exact List.Sublist.refl _
  | cons p rest ih =>
    obtain ⟨t, o⟩ := p
    cases o with
    | none =>
      simp only [seekEntries, List.map_cons]
      exact ih.cons _
    | some v =>
      simp only [seekEntries, List.map_cons]
      exact ih.cons₂ _

theorem seekEntries_mem {l : List (TP × Option Int)} {tp : TP} {o : Int}
    (h : (tp, some o) ∈ l) : (tp, o) ∈ seekEntries l := by
  induction l with
  | nil => cases h
  | cons p rest ih =>
    obtain ⟨t, oo⟩ := p
    rcases List.mem_cons.mp h with h1 | h1
    · injection h1 with h2 h3
      subst h2
      rw [← h3]
      simp [seekEntries]
    · cases oo with
      | none => exact ih h1
      | some v =>
        simp only [seekEntries]
        exact List.mem_cons_of_mem _ (ih h1)

/-- Claim C8 counterexample: the driver reports committed offset 0 for
`tpA`; after `perform_seek`, `read_offset[tpA]` is `none` but
`committed_offset[tpA]` is `some 0`, not `none` as the claim states. -/
theorem C8_counterexample :
    (perform_seek initialState [(tpA, some 0)]).read_offset tpA = none ∧
    ¬ (perform_seek initialState [(tpA, some 0)]).committed_offset tpA
        = none := by
  constructor
  · rfl
  · intro h
    exact Option.noConfusion h

/-- Claim C8 (amended): after `perform_seek`, a topic-partition whose
reported committed offset is 0 has `read_offset` recorded as unknown
(`none`) — 0 is normalized to "no prior commit" there — while
`committed_offset` records the raw value `some 0`; only `read_offset`
normalizes. -/
theorem C8_perform_seek_zero (s : ConsumerState)
    (driver : List (TP × Option Int)) (tp : TP)
    (hnd : (driver.map Prod.fst).Nodup) (h : (tp, some 0) ∈ driver) :
    (perform_seek s driver).read_offset tp = none ∧
    (perform_seek s driver).committed_offset tp = some 0 := by
  have hnd' : ((seekEntries driver).map Prod.fst).Nodup :=
    (seekEntries_keys_sublist driver).nodup hnd
  have hm : (tp, (0 : Int)) ∈ seekEntries driver := seekEntries_mem h
  constructor
  · unfold perform_seek
    dsimp only
    apply dictUpdate_mem_of_nodup
    · rw [map_pair_keys]
      exact hnd'
    · refine List.mem_map.mpr ⟨(tp, 0), hm, ?_⟩
      simp
  · unfold perform_seek
    dsimp only
    apply dictUpdate_mem_of_nodup
    · rw [map_pair_keys]
      exact hnd'
    · exact List.mem_map.mpr ⟨(tp, 0), hm, rfl⟩

/-- Witness for claim C8 (amended) on the singleton driver map. -/
theorem C8_witness :
    (perform_seek initialState [(tpA, some 0)]).read_offset tpA = none ∧
    (perform_seek initialState [(tpA, some 0)]).committed_offset tpA
      = some 0 :=
  C8_perform_seek_zero initialState [(tpA, some 0)] tpA (by decide) (by decide)

/-- Claim C9 counterexample: with materialized active set `∅` and empty
paused set, `pause_partitions {tpA}` then `resume_partitions {tpA}` ends
with active set `{tpA}`, different from the prior `∅`: the pair of calls
is not a round trip on every state. -/
theorem C9_counterexample :
    (resume_partitions (pause_partitions stateC9 ∅ {tpA}) ∅ {tpA}).active_partitions
      ≠ stateC9.active_partitions := by
  decide

/-- Claim C9 (amended): `pause_partitions(S)` then `resume_partitions(S)`
restores both the effective active set and the paused set, provided every
member of `S` was active and none was paused beforehand; without that
proviso the calls end with active ∪ S and paused \ S. -/
theorem C9_pause_resume_roundtrip (s : ConsumerState)
    (assignment : Finset TP) (S : Finset TP)
    (hS : S ⊆ (get_active_partitions s assignment).1)
    (hP : ∀ x ∈ S, x ∉ s.paused_partitions) :
    (resume_partitions (pause_partitions s assignment S) assignment
        S).active_partitions = some (get_active_partitions s assignment).1 ∧
    (resume_partitions (pause_partitions s assignment S) assignment
        S).paused_partitions = s.paused_partitions := by
  have hAS : ((get_active_partitions s assignment).1 \ S) ∪ S
      = (get_active_partitions s assignment).1 :=
    Finset.sdiff_union_of_subset hS
  have hPS : (s.paused_partitions ∪ S) \ S = s.paused_partitions := by
    ext a
    simp only [Finset.mem_sdiff, Finset.mem_union]
    constructor
    · rintro ⟨h1 | h1, h2⟩
      · exact h1
      · exact absurd h1 h2
    · intro ha
      exact ⟨Or.inl ha, fun hs => hP a hs ha⟩
  cases hA : s.active_partitions with
  | none =>
    unfold get_active_partitions set_active_tps at hAS
    rw [hA] at hAS
    dsimp only at hAS
    unfold resume_partitions pause_partitions get_active_partitions
      set_active_tps
    rw [hA]
    dsimp only
    exact ⟨by rw [hAS], by rw [hPS]⟩
  | some A =>
    unfold get_active_partitions set_active_tps at hAS
    rw [hA] at hAS
    dsimp only at hAS
    unfold resume_partitions pause_partitions get_active_partitions
      set_active_tps
    rw [hA]
    dsimp only
    exact ⟨by rw [hAS], by rw [hPS]⟩

/-- Witness for claim C9 (amended) with active set `{tpA}` and `S = {tpA}`. -/
theorem C9_witness :
    (resume_partitions (pause_partitions stateC9w ∅ {tpA}) ∅
        {tpA}).active_partitions = some (get_active_partitions stateC9w ∅).1 ∧
    (resume_partitions (pause_partitions stateC9w ∅ {tpA}) ∅
        {tpA}).paused_partitions = stateC9w.paused_partitions :=
  C9_pause_resume_roundtrip stateC9w ∅ {tpA} (by decide) (by decide)

end Faust
